import Mathlib

/-!
# Verification of the `moncat` free monoidal category module

Shallow embedding of `moncat.py` (free dagger monoidal category: types,
boxes, diagrams, interchange, normalization, foliation, monoidal functors).

The module imports a substrate `discopy.cat` that is not part of the
sources; where behaviour of that substrate is needed (the
domain/codomain compatibility check of sequential composition, the
dagger of a box) it is modelled from the spec, and the definitions say so
in their doc comments.

Diagram equality in the source compares exactly the four fields
`(dom, cod, boxes, offsets)` (`Diagram.__eq__`); the derived `layers`
field is determined by these for canonically built diagrams and is not
part of equality, so diagrams are embedded as that 4-tuple.
-/

namespace Moncat

/-- An atomic object (`discopy.cat.Ob`): equality is by name, so a name. -/
abbrev Ob := String

/-- A type (`moncat.Ty`): a list of objects.  Tensor is concatenation,
the unit is the empty list (`Ty()`). -/
abbrev Ty := List Ob

/-- Python list slicing `l[:i]` for an arbitrary (possibly negative) `int i`. -/
def pyTake {α : Type} (l : List α) (i : Int) : List α :=
  if i < 0 then l.take (l.length - (-i).toNat) else l.take i.toNat

/-- Python list slicing `l[i:]` for an arbitrary (possibly negative) `int i`. -/
def pyDrop {α : Type} (l : List α) (i : Int) : List α :=
  if i < 0 then l.drop (l.length - (-i).toNat) else l.drop i.toNat

/-- A generator (`moncat.Box`): name, domain, codomain and the dagger flag.
The dagger flag and box equality live in the absent `cat.py`; modelled from
the spec: "immutable value with name, domain Type, codomain Type, ... and a
dagger flag" with structural equality.  The optional opaque payload is
omitted (no claim mentions it). -/
structure Bx where
  name : String
  dom : Ty
  cod : Ty
  dg : Bool := false
deriving DecidableEq, Repr

/-- Modelled from the spec: "reversing a generator swaps domain/codomain and
toggles the flag" (the implementation is in the absent `cat.py`). -/
def Bx.dagger (b : Bx) : Bx := ⟨b.name, b.cod, b.dom, !b.dg⟩

/-- A diagram (`moncat.Diagram`): the four fields that `Diagram.__eq__`
compares.  Offsets are Python ints. -/
structure Diagram where
  dom : Ty
  cod : Ty
  boxes : List Bx
  offsets : List Int
deriving DecidableEq, Repr

/-- `moncat.Id`: identity diagram on a type. -/
def idD (t : Ty) : Diagram := ⟨t, t, [], []⟩

/-- A box as a one-box diagram (`moncat.Box.__init__`: `boxes=[self]`,
`offsets=[0]`). -/
def ofBox (b : Bx) : Diagram := ⟨b.dom, b.cod, [b], [0]⟩

/-- `Diagram.then`: sequential composition.  The data is from
`moncat.Diagram.then` (new dom/cod, concatenated boxes and offsets); the
substrate's `cod == dom` compatibility check lives in the absent `cat.py`
and is carried as a hypothesis by the theorems that need it. -/
def Diagram.then (d e : Diagram) : Diagram :=
  ⟨d.dom, e.cod, d.boxes ++ e.boxes, d.offsets ++ e.offsets⟩

/-- `Diagram.tensor`: parallel composition; `other`'s offsets shift by
`len(self.cod)` (`moncat.Diagram.tensor`). -/
def Diagram.tensor (d e : Diagram) : Diagram :=
  ⟨d.dom ++ e.dom, d.cod ++ e.cod, d.boxes ++ e.boxes,
    d.offsets ++ e.offsets.map (· + (d.cod.length : Int))⟩

/-- `d[::-1]`: the dagger of a diagram.  `moncat.Diagram.__getitem__` with a
`[::-1]` slice delegates to the layer sequence of the absent substrate;
modelled from the spec: "reverses generator order, daggers every generator,
and recomputes offsets/layers so that domain and codomain swap" (for
canonically built diagrams the recomputed offsets are the reversed
offsets, each layer keeping its left wires, cf. `Layer.__getitem__`). -/
def Diagram.dagger (d : Diagram) : Diagram :=
  ⟨d.cod, d.dom, (d.boxes.map Bx.dagger).reverse, d.offsets.reverse⟩

/-! ## Construction-time validation (`Diagram.__init__`)

`Diagram.__init__` folds the boxes into layers: at each step it slices the
running `scan` into `left = scan[:off]` and `right = scan[off+len(box.dom):]`
and composes with `Layer(left, box, right)`.  The composition `>>` of the
substrate checks that the running codomain equals the layer's domain
`left @ box.dom @ right` (modelled from the spec: sequential composition
"checks domain/codomain compatibility and fails with a
composition-mismatch error on disagreement"); finally `>> cat.Id(cod)`
checks the declared codomain. -/

/-- One validation pass of `Diagram.__init__`: returns the final scan type
if every layer composes, `none` if some check fails. -/
def build (scan : Ty) : List Bx → List Int → Option Ty
  | [], [] => some scan
  | b :: bs, o :: os =>
    let left := pyTake scan o
    let right := pyDrop scan (o + (b.dom.length : Int))
    if scan = left ++ b.dom ++ right then
      build (left ++ b.cod ++ right) bs os
    else none
  | _, _ => none

/-- `Diagram.__init__` with `layers=None`: validates and produces the
diagram value, or fails. -/
def mkDiagram (dom cod : Ty) (boxes : List Bx) (offsets : List Int) :
    Option Diagram :=
  match build dom boxes offsets with
  | some c => if c = cod then some ⟨dom, cod, boxes, offsets⟩ else none
  | none => none

/-! ## Interchange (`Diagram.interchange`) -/

/-- Errors of `Diagram.interchange`: `IndexError` for out-of-bounds indices
(or a malformed diagram whose box/offset lists disagree in length),
`InterchangerError(box0, box1)` for overlapping wire ranges. -/
inductive DErr where
  | indexError : DErr
  | interchanger (b0 b1 : Bx) : DErr
deriving DecidableEq, Repr

/-- The adjacent ("unit") interchange of boxes `lo` and `lo+1`
(`Diagram.interchange`, adjacent case): the three-branch legality test in
source order — the left-of test gated on the `left` flag, then right-of,
then left-of again — else `InterchangerError`. -/
def unitInterchange (d : Diagram) (lo : Nat) (left : Bool) :
    Except DErr Diagram :=
  match d.boxes[lo]?, d.boxes[lo + 1]?,
      d.offsets[lo]?, d.offsets[lo + 1]? with
  | some b0, some b1, some o0, some o1 =>
    let splice : Int → Int → Diagram := fun x y =>
      ⟨d.dom, d.cod,
        d.boxes.take lo ++ [b1, b0] ++ d.boxes.drop (lo + 2),
        d.offsets.take lo ++ [x, y] ++ d.offsets.drop (lo + 2)⟩
    if left ∧ o1 ≥ o0 + (b0.cod.length : Int) then
      .ok (splice (o1 - (b0.cod.length : Int) + (b0.dom.length : Int)) o0)
    else if o0 ≥ o1 + (b1.dom.length : Int) then
      .ok (splice o1 (o0 - (b1.dom.length : Int) + (b1.cod.length : Int)))
    else if o1 ≥ o0 + (b0.cod.length : Int) then
      .ok (splice (o1 - (b0.cod.length : Int) + (b0.dom.length : Int)) o0)
    else .error (.interchanger b0 b1)
  | _, _, _, _ => .error .indexError

/-- One unit step of the `|i−j|>1` decomposition loops: the recursive call
`interchange(p, p±1)` on adjacent indices, including its entry bounds
check. -/
def adjStep (d : Diagram) (lo : Nat) (left : Bool) : Except DErr Diagram :=
  if lo + 1 < d.boxes.length then unitInterchange d lo left
  else .error .indexError

/-- The `j > i + 1` loop of `Diagram.interchange`:
`for k in range(j - i): result = result.interchange(i+k, i+k+1)`. -/
def goUp (d : Diagram) (i : Nat) : Nat → Bool → Except DErr Diagram
  | 0, _ => .ok d
  | n + 1, left => (adjStep d i left).bind fun d' => goUp d' (i + 1) n left

/-- The `j < i - 1` loop of `Diagram.interchange`:
`for k in range(i - j): result = result.interchange(i-k, i-k-1)`. -/
def goDown (d : Diagram) (i : Nat) : Nat → Bool → Except DErr Diagram
  | 0, _ => .ok d
  | n + 1, left => (adjStep d (i - 1) left).bind fun d' => goDown d' (i - 1) n left

/-- `Diagram.interchange(i, j, left)`: bounds check, no-op for `i == j`,
decomposition into unit steps for `|i−j|>1`, unit interchange when
adjacent. -/
def Diagram.interchange (d : Diagram) (i j : Nat) (left : Bool) :
    Except DErr Diagram :=
  if i < d.boxes.length ∧ j < d.boxes.length then
    if i = j then .ok d
    else if j + 1 < i then goDown d i (i - j) left
    else if i + 1 < j then goUp d i (j - i) left
    else unitInterchange d (min i j) left
  else .error .indexError

/-! ## Normalization (`Diagram.normalize`, `Diagram.normal_form`) -/

/-- The move condition of `Diagram.normalize`'s scan at pair `(i, i+1)`:
`left and off1 >= off0 + len(box0.cod) or not left and
off0 >= off1 + len(box1.dom)`. -/
def moveCond (d : Diagram) (i : Nat) (left : Bool) : Bool :=
  match d.boxes[i]?, d.boxes[i + 1]?,
      d.offsets[i]?, d.offsets[i + 1]? with
  | some b0, some b1, some o0, some o1 =>
    if left then o1 ≥ o0 + (b0.cod.length : Int)
    else o0 ≥ o1 + (b1.dom.length : Int)
  | _, _, _, _ => false

/-- The rest of one pass of `Diagram.normalize` from index `i`, with `n`
pair-indices left to scan: returns the diagram at the end of the pass and
the list of diagrams yielded during it, in order.  When the move condition
holds the interchange is the adjacent case of `Diagram.interchange`, which
cannot fail then (the condition is exactly its second branch, or its first
when `left` is set); the error fallback is unreachable. -/
def passFrom (left : Bool) : Diagram → Nat → Nat → Diagram × List Diagram
  | d, _, 0 => (d, [])
  | d, i, n + 1 =>
    if moveCond d i left then
      match unitInterchange d i left with
      | .ok d' =>
        let (r, ems) := passFrom left d' (i + 1) n
        (r, d' :: ems)
      | .error _ => (d, [])
    else passFrom left d (i + 1) n

/-- One full pass of `Diagram.normalize`'s `while True` body:
`for i in range(len(diagram) - 1)`. -/
def runPass (d : Diagram) (left : Bool) : Diagram × List Diagram :=
  passFrom left d 0 (d.boxes.length - 1)

/-- The first `fuel` passes' worth of diagrams yielded by
`Diagram.normalize`; the sequence stops (fixed point) after a pass that
yields nothing. -/
def normalizeEmits : Nat → Diagram → Bool → List Diagram
  | 0, _, _ => []
  | fuel + 1, d, left =>
    let (d', ems) := runPass d left
    if ems.isEmpty then [] else ems ++ normalizeEmits fuel d' left

/-- Driving `Diagram.normalize` to its fixed point, ignoring the cache:
`some r` once a pass performs no move, `none` if `fuel` passes do not
reach a fixed point. -/
def normalizeRun : Nat → Diagram → Bool → Option Diagram
  | 0, _, _ => none
  | fuel + 1, d, left =>
    let (d', ems) := runPass d left
    if ems.isEmpty then some d else normalizeRun fuel d' left

/-- `Diagram.normal_form`'s cache discipline over one pass's yields: `none`
at the first yield already in the cache (the `NotImplementedError`),
otherwise the extended cache. -/
def checkCache : List Diagram → List Diagram → Option (List Diagram)
  | [], cache => some cache
  | e :: es, cache =>
    if e ∈ cache then none else checkCache es (e :: cache)

/-- `Diagram.normal_form` with a bound on the number of normalize passes:
`none` = out of fuel, `some none` = the `NotImplementedError`
(non-termination detected), `some (some r)` = the returned normal form. -/
def normalFormAux (left : Bool) : Nat → Diagram → List Diagram →
    Option (Option Diagram)
  | 0, _, _ => none
  | fuel + 1, d, cache =>
    let (d', ems) := runPass d left
    if ems.isEmpty then some (some d)
    else
      match checkCache ems cache with
      | none => some none
      | some cache' => normalFormAux left fuel d' cache'

/-- `diagram.normal_form()` (default arguments), with pass fuel. -/
def normalFormFuel (fuel : Nat) (d : Diagram) : Option (Option Diagram) :=
  normalFormAux false fuel d []

/-! ## Monoidal functors (`MonoidalFunctor.__call__`) -/

/-- A monoidal functor into the diagram algebra itself: an object-to-type
mapping and a box-to-diagram mapping.  Modelled from the spec for the part
living in the absent `cat.py`: "the image of a lone generator is a direct
lookup through the generator mapping". -/
structure MonFunctor where
  ob : Ob → Ty
  ar : Bx → Diagram

/-- `F(type)`: the sum (left-to-right, unit `Ty()`) of the images of the
objects. -/
def mapTy (F : MonFunctor) (t : Ty) : Ty := (t.map F.ob).flatten

/-- The structural-induction loop of `MonoidalFunctor.__call__` on a
diagram: scanning fold over `zip(boxes, offsets)`, composing
`id_l @ F(box) @ id_r` on the right at each step. -/
def applyFGo (F : MonFunctor) : Ty → List Bx → List Int → Diagram → Diagram
  | _, [], _, acc => acc
  | _, _ :: _, [], acc => acc
  | scan, b :: bs, o :: os, acc =>
    let left := pyTake scan o
    let right := pyDrop scan (o + (b.dom.length : Int))
    applyFGo F (left ++ b.cod ++ right) bs os
      (acc.then (((idD (mapTy F left)).tensor (F.ar b)).tensor
        (idD (mapTy F right))))

/-- `F(diagram)` for a general diagram (`MonoidalFunctor.__call__`,
`Diagram` branch). -/
def applyF (F : MonFunctor) (d : Diagram) : Diagram :=
  applyFGo F d.dom d.boxes d.offsets (idD (mapTy F d.dom))

/-! ## Foliation (`Diagram.foliate`, `Diagram.depth`) -/

/-- `is_right_of(last, diagram)` inside `Diagram.foliate`: `some false` if
box `last+1` is left of box `last`, `some true` if right of it, `none` if
they overlap.  (Out-of-range access, which Python would crash on, also
gives `none`; it is unreachable from `foliate`.) -/
def isRightOf (d : Diagram) (last : Nat) : Option Bool :=
  match d.boxes[last]?, d.boxes[last + 1]?,
      d.offsets[last]?, d.offsets[last + 1]? with
  | some b0, some b1, some o0, some o1 =>
    if o0 ≥ o1 + (b1.dom.length : Int) then some false
    else if o1 ≥ o0 + (b0.cod.length : Int) then some true
    else none
  | _, _, _, _ => none

/-- `move_in_slice(first, last, k, diagram)`: try to absorb box `k` into
the slice `[first, last]`.  The `try/except InterchangerError` is the
`.toOption`.  `fuel` bounds the leftward recursion; `moveInSlice` below
passes `last - first + 1`, which the recursion (decreasing `last` towards
`first`) never exhausts. -/
def moveInSliceF : Nat → Diagram → Nat → Nat → Nat → Option Diagram
  | 0, _, _, _, _ => none
  | fuel + 1, d, first, last, k =>
    let r1? := if k = last + 1 then some d
      else (d.interchange k (last + 1) false).toOption
    match r1? with
    | none => none
    | some r1 =>
      match isRightOf r1 last with
      | none => none
      | some true => some r1
      | some false =>
        match (r1.interchange (last + 1) last false).toOption with
        | none => none
        | some r2 =>
          if last = first then some r2
          else moveInSliceF fuel r2 first (last - 1) last

/-- `move_in_slice` with sufficient fuel. -/
def moveInSlice (d : Diagram) (first last k : Nat) : Option Diagram :=
  moveInSliceF (last - first + 1) d first last k

/-- The scan type after the first `n` layers of a diagram (the running
codomain), used to extract the domain/codomain of a slice
(`diagram[start:last+1]`). -/
def scanN : Ty → List Bx → List Int → Nat → Ty
  | scan, _, _, 0 => scan
  | scan, b :: bs, o :: os, n + 1 =>
    scanN (pyTake scan o ++ b.cod ++ pyDrop scan (o + (b.dom.length : Int)))
      bs os n
  | scan, _, _, _ => scan

/-- `diagram[a:b+1]`: the sub-diagram spanning layers `a..b`
(`Diagram.__getitem__`, slice branch, for canonically built diagrams). -/
def subDiagram (d : Diagram) (a b : Nat) : Diagram :=
  ⟨scanN d.dom d.boxes d.offsets a, scanN d.dom d.boxes d.offsets (b + 1),
    (d.boxes.drop a).take (b + 1 - a), (d.offsets.drop a).take (b + 1 - a)⟩

/-- The inner `for k in range(last + 1, len(diagram))` loop of
`Diagram.foliate`: grows the current slice, returning the rewritten
diagram and the final `last`.  `fuel` bounds the loop; `k` increases by
one per step, so fuel `len` (as passed by `foliateOuter`) never runs
out. -/
def foliateInner (len : Nat) : Nat → Diagram → Nat → Nat → Nat →
    Diagram × Nat
  | 0, d, _, last, _ => (d, last)
  | fuel + 1, d, start, last, k =>
    if k < len then
      match moveInSlice d start last k with
      | none => foliateInner len fuel d start last (k + 1)
      | some d' => foliateInner len fuel d' start (last + 1) (k + 1)
    else (d, last)

/-- The outer `while start < len(diagram)` loop of `Diagram.foliate`,
collecting closed slices.  `start` strictly increases each iteration, so
fuel `len + 1` (as passed by `foliateSlices`) never runs out. -/
def foliateOuter : Nat → Diagram → Nat → List Diagram → List Diagram
  | 0, _, _, slices => slices
  | fuel + 1, d, start, slices =>
    if start < d.boxes.length then
      let (d', last) :=
        foliateInner d.boxes.length d.boxes.length d start start (start + 1)
      foliateOuter fuel d' (last + 1) (slices ++ [subDiagram d' start last])
    else slices

/-- The list of maximal slices produced by
`diagram.foliate(yield_slices=True)`. -/
def foliateSlices (d : Diagram) : List Diagram :=
  foliateOuter (d.boxes.length + 1) d 0 []

/-- `Diagram.depth`: the number of maximal slices. -/
def Diagram.depth (d : Diagram) : Nat := (foliateSlices d).length

/-! ## `Ty.__getitem__` and `Ty.__pow__` -/

/-- The dynamic result of `Ty.__getitem__`: either a bare object (integer
key) or a sub-type (slice key). -/
inductive PyVal where
  | obj (o : Ob) : PyVal
  | type (t : Ty) : PyVal
deriving DecidableEq, Repr

/-- A `__getitem__` key: an integer index or a `[a:b]` slice. -/
inductive PyKey where
  | idx (i : Int) : PyKey
  | slc (a b : Int) : PyKey
deriving DecidableEq, Repr

/-- Python list indexing `l[i]` (negative indices count from the end;
`none` is the `IndexError`). -/
def pyIdx {α : Type} (l : List α) (i : Int) : Option α :=
  if i < 0 then
    if (-i).toNat ≤ l.length then l.get? (l.length - (-i).toNat) else none
  else l.get? i.toNat

/-- Clamp a Python slice endpoint into `[0, n]`. -/
def pyNorm (n : Nat) (i : Int) : Nat :=
  if i < 0 then n - (-i).toNat else min i.toNat n

/-- Python list slicing `l[a:b]` (step 1). -/
def pySliceAB {α : Type} (l : List α) (a b : Int) : List α :=
  (l.take (pyNorm l.length b)).drop (pyNorm l.length a)

/-- `Ty.__getitem__`: a slice key yields `Ty(*self.objects[key])`, an
integer key yields the bare object `self.objects[key]`. -/
def tyGetItem (t : Ty) : PyKey → Option PyVal
  | .idx i => (pyIdx t i).map .obj
  | .slc a b => some (.type (pySliceAB t a b))

/-- `Ty.__pow__`: `sum(n_times * (self,), type(self)())` — the
concatenation of `max n 0` copies of the type (a negative multiplier makes
an empty tuple in Python). -/
def tyPow (t : Ty) (n : Int) : Ty := (List.replicate n.toNat t).flatten

/-- The scan-type evolution of a diagram (the running codomain), with
Python slice semantics — exactly the `scan` updates of
`MonoidalFunctor.__call__` and `Diagram.width`. -/
def scanPy : Ty → List Bx → List Int → Ty
  | scan, [], _ => scan
  | scan, _ :: _, [] => scan
  | scan, b :: bs, o :: os =>
    scanPy (pyTake scan o ++ b.cod ++ pyDrop scan (o + (b.dom.length : Int)))
      bs os

/-- Canonical well-formedness of a box/offset sequence over a scan type:
every offset is nonnegative and in bounds, and the generator's domain
matches the wires it consumes — the invariant every diagram built by
`Id`, `Box`, `then` and `tensor` satisfies.  Returns the final scan. -/
def canonScan : Ty → List Bx → List Int → Option Ty
  | scan, [], [] => some scan
  | scan, b :: bs, o :: os =>
    if 0 ≤ o ∧ o.toNat + b.dom.length ≤ scan.length ∧
        (scan.drop o.toNat).take b.dom.length = b.dom then
      canonScan (scan.take o.toNat ++ b.cod ++
        scan.drop (o.toNat + b.dom.length)) bs os
    else none
  | _, _, _ => none

/-- A canonically well-formed diagram. -/
def Diagram.WF (d : Diagram) : Prop :=
  canonScan d.dom d.boxes d.offsets = some d.cod

/-- A functor whose generator images have the translated boundary types
(what makes the generator mapping a *monoidal* functor). -/
def typeOk (F : MonFunctor) : Prop :=
  ∀ b : Bx, (F.ar b).dom = mapTy F b.dom ∧ (F.ar b).cod = mapTy F b.cod

/-- The identity monoidal functor: objects to atomic types, generators to
their one-box diagrams (the `Quiver(lambda x: x)` functor of
`Diagram.flatten`, restricted to generator boxes). -/
def idF : MonFunctor := ⟨fun o => [o], ofBox⟩

/-- Whether a `Ty.__getitem__` result is a `Ty` value. -/
def isTypeVal : Option PyVal → Bool
  | some (.type _) => true
  | _ => false

/-- The offset bound the construction of a diagram actually enforces:
whenever an offset is nonnegative and its generator's domain is nonempty,
the generator must fit the current scan
(`offset + len(box.dom) ≤ len(scan)`). -/
def offsetsOK : Ty → List Bx → List Int → Bool
  | _, [], _ => true
  | _, _ :: _, [] => true
  | scan, b :: bs, o :: os =>
    ((!decide (0 ≤ o)) || b.dom.isEmpty ||
        decide (o + (b.dom.length : Int) ≤ (scan.length : Int))) &&
      offsetsOK (pyTake scan o ++ b.cod ++ pyDrop scan (o + (b.dom.length : Int)))
        bs os

/-! ## Concrete fixtures

Generators and diagrams used by witnesses and counterexamples; they match
the doctests of `moncat.py` (`f0 : x → y`, `f1 : z → w`, the scalars
`s0, s1 : Ty() → Ty()`) plus a unit/counit pair. -/

def bF0 : Bx := ⟨"f0", ["x"], ["y"], false⟩

def bF1 : Bx := ⟨"f1", ["z"], ["w"], false⟩

def bG : Bx := ⟨"g", ["y"], ["x"], false⟩

def bS0 : Bx := ⟨"s0", [], [], false⟩

def bS1 : Bx := ⟨"s1", [], [], false⟩

/-- A state (unit) generator `u : Ty() → B`. -/
def bU : Bx := ⟨"u", [], ["B"], false⟩

/-- An effect (counit) generator `c : A → Ty()`. -/
def bC : Bx := ⟨"c", ["A"], [], false⟩

/-- The diagram `A → B` with boxes `[u, c]` at offsets `[1, 0]`: the unit
fires to the right of the wire `A`, then the counit consumes `A`. -/
def dUC : Diagram := ⟨["A"], ["B"], [bU, bC], [1, 0]⟩

/-- Three generators acting on three disjoint wires `x, y, z`. -/
def dRot : Diagram :=
  ⟨["x", "y", "z"], ["x", "y", "z"],
    [⟨"a", ["x"], ["x"], false⟩, ⟨"b", ["y"], ["y"], false⟩,
      ⟨"c", ["z"], ["z"], false⟩],
    [0, 1, 2]⟩

/-- The value of `dRot.interchange(0, 2)`: the segment rotated one step. -/
def rRot : Diagram :=
  ⟨["x", "y", "z"], ["x", "y", "z"],
    [⟨"b", ["y"], ["y"], false⟩, ⟨"c", ["z"], ["z"], false⟩,
      ⟨"a", ["x"], ["x"], false⟩],
    [1, 2, 0]⟩

/-! ## List helpers -/

section ListHelpers

variable {α : Type}

theorem insertIdx_append_cons (A : List α) :
    ∀ (B : List α) (x : α), (A ++ B).insertIdx A.length x = A ++ x :: B := by
  induction A with
  | nil => intro B x; rfl
  | cons a A ih => intro B x; simpa [List.insertIdx_succ_cons] using ih B x

theorem take_of_append_cons (A : List α) (B : List α) :
    (A ++ B).take A.length = A := List.take_left A B

theorem drop_of_append_cons (A : List α) (B : List α) :
    (A ++ B).drop A.length = B := List.drop_left A B

theorem getElem?_append_len (A B : List α) :
    (A ++ B)[A.length]? = B[0]? := by
  rw [List.getElem?_append_right (Nat.le_refl _), Nat.sub_self]

theorem getElem?_append_len1 (A B : List α) :
    (A ++ B)[A.length + 1]? = B[1]? := by
  rw [List.getElem?_append_right (Nat.le_add_right _ _),
    Nat.add_sub_cancel_left]

theorem drop_getElem?_cons {l : List α} {n : Nat} {a : α}
    (h : l[n]? = some a) : l.drop n = a :: l.drop (n + 1) := by
  have hn : n < l.length := (List.getElem?_eq_some.mp h).1
  rw [List.drop_eq_getElem_cons hn]
  have : l[n] = a := by
    have := (List.getElem?_eq_some.mp h).2
    simpa using this
  rw [this]

theorem take_cons_drop {l : List α} {n : Nat} {a : α}
    (h : l[n]? = some a) : l.take n ++ a :: l.drop (n + 1) = l := by
  conv_rhs => rw [← List.take_append_drop n l]
  rw [drop_getElem?_cons h]

/-- Restoring a list from the two-element splice of `interchange`. -/
theorem splice_self {l : List α} {i : Nat} {a b : α}
    (h0 : l[i]? = some a) (h1 : l[i + 1]? = some b) :
    l.take i ++ [a, b] ++ l.drop (i + 2) = l := by
  have h2 : l.drop (i + 1) = b :: l.drop (i + 2) := drop_getElem?_cons h1
  have := take_cons_drop h0
  rw [h2] at this
  simpa using this

theorem length_take_of_lt {l : List α} {i : Nat} (h : i < l.length) :
    (l.take i).length = i := by
  simp [List.length_take, Nat.min_eq_left (Nat.le_of_lt h)]

end ListHelpers

/-! ## C10: negative exponents in `Ty.__pow__` -/

/-- C10: for every type `t` and negative integer `n`, `t ** n` is the unit
type (Python's `n * (t,)` is the empty tuple for `n ≤ 0`), rather than an
error. -/
theorem tyPow_neg_eq_unit (t : Ty) (n : Int) (h : n < 0) : tyPow t n = [] := by
  unfold tyPow
  rw [Int.toNat_of_nonpos (le_of_lt h)]
  rfl

/-- Witness for C10 at `t = Ty('x')`, `n = -3`. -/
theorem tyPow_neg_eq_unit_witness :
    (-3 : Int) < 0 ∧ tyPow ["x"] (-3) = [] :=
  ⟨by decide, tyPow_neg_eq_unit ["x"] (-3) (by decide)⟩

/-! ## C9: `Ty.__getitem__` with a single index -/

/-- C9 counterexample: indexing `Ty('x', 'y')` at the in-bounds index `0`
returns the bare object `Ob('x')`, not a sub-`Ty` — exactly as the
doctest of `Ty.objects` shows (`t[0] == Ob('x')`). -/
theorem tyGetItem_idx_not_type :
    tyGetItem ["x", "y"] (.idx 0) = some (.obj "x") ∧
      isTypeVal (tyGetItem ["x", "y"] (.idx 0)) = false := by
  constructor <;> rfl

/-- C9 (amended): slicing a `Ty` by a range returns a sub-`Ty`, but
indexing by a single in-bounds integer returns the object at that
position, never a `Ty` value. -/
theorem tyGetItem_idx_obj_slc_type :
    (∀ (t : Ty) (i : Nat), i < t.length →
      tyGetItem t (.idx (i : Int)) = t[i]?.map PyVal.obj ∧
        isTypeVal (tyGetItem t (.idx (i : Int))) = false) ∧
    (∀ (t : Ty) (a b : Int), isTypeVal (tyGetItem t (.slc a b)) = true) := by
  constructor
  · intro t i h
    have hidx : pyIdx t (i : Int) = t[i]? := by
      unfold pyIdx
      rw [if_neg (by omega)]
      simp
    constructor
    · simp [tyGetItem, hidx]
    · rw [show tyGetItem t (.idx (i : Int)) = (pyIdx t (i : Int)).map .obj
        from rfl, hidx]
      rcases h' : t[i]? with _ | o
      · simp [isTypeVal]
      · simp [isTypeVal]
  · intro t a b
    rfl

/-- Witness for C9's amended theorem at `t = Ty('x', 'y')`, `i = 0`. -/
theorem tyGetItem_idx_obj_slc_type_witness :
    (0 < (["x", "y"] : Ty).length ∧
      tyGetItem ["x", "y"] (.idx (0 : Int)) =
        (["x", "y"] : Ty)[0]?.map PyVal.obj) ∧
      isTypeVal (tyGetItem ["x", "y"] (.slc 0 1)) = true :=
  ⟨⟨by decide, (tyGetItem_idx_obj_slc_type.1 ["x", "y"] 0 (by decide)).1⟩,
    tyGetItem_idx_obj_slc_type.2 ["x", "y"] 0 1⟩

/-! ## C2: offset validation at construction -/

theorem build_offsetsOK :
    ∀ (bs : List Bx) (os : List Int) (scan c : Ty),
      build scan bs os = some c → offsetsOK scan bs os = true := by
  intro bs
  induction bs with
  | nil => intro os scan c _; rfl
  | cons b bs ih =>
    intro os scan c h
    cases os with
    | nil => exact absurd h (by simp [build])
    | cons o os =>
      rw [build] at h
      by_cases hc :
          scan = pyTake scan o ++ b.dom ++
            pyDrop scan (o + (b.dom.length : Int))
      · rw [if_pos hc] at h
        rw [offsetsOK, Bool.and_eq_true]
        refine ⟨?_, ih os _ c h⟩
        by_cases h0 : (0 : Int) ≤ o
        · by_cases hd : b.dom = []
          · simp [hd]
          · have hlen : (scan.length : Int) =
                (pyTake scan o).length + b.dom.length +
                  (pyDrop scan (o + (b.dom.length : Int))).length := by
              conv_lhs => rw [hc]
              push_cast [List.length_append]
              ring
            have htake : (pyTake scan o).length = min o.toNat scan.length := by
              unfold pyTake
              rw [if_neg (by omega)]
              simp
            have hdrop : (pyDrop scan (o + (b.dom.length : Int))).length =
                scan.length - (o.toNat + b.dom.length) := by
              unfold pyDrop
              rw [if_neg (by omega), List.length_drop]
              omega
            have hdne : 0 < b.dom.length :=
              List.length_pos.mpr hd
            have ho : o = (o.toNat : Int) := by omega
            rw [htake, hdrop] at hlen
            have hmain : o + (b.dom.length : Int) ≤ (scan.length : Int) := by
              omega
            simp [hmain]
        · simp [h0]
      · rw [if_neg hc] at h
        exact absurd h (by simp)

/-- C2 counterexample: `Diagram(Ty(), Ty(), [s0], [1])` — the offset `1`
violates `0 ≤ 1 ≤ len(scan) − len(dom) = 0`, yet construction succeeds,
because the scalar `s0` has an empty domain and both slices of the empty
scan are empty, so the layer composes. -/
theorem mkDiagram_oob_offset_succeeds :
    (mkDiagram [] [] [bS0] [1]).isSome = true ∧
      ¬ ((1 : Int) ≤ (([] : Ty).length : Int) - (bS0.dom.length : Int)) := by
  constructor
  · rfl
  · decide

/-- C2 (amended): if construction succeeds then every layer whose offset is
nonnegative and whose generator has a nonempty domain satisfies the bound
`offset ≤ len(scan) − len(box.dom)`; out-of-bound offsets can be accepted
when the generator's domain is empty, or when the offset is negative
(Python slice semantics make the layer compose anyway). -/
theorem mkDiagram_some_offsetsOK (dom cod : Ty) (bs : List Bx)
    (os : List Int) (d : Diagram) (h : mkDiagram dom cod bs os = some d) :
    offsetsOK dom bs os = true := by
  unfold mkDiagram at h
  rcases hb : build dom bs os with _ | c
  · rw [hb] at h; exact absurd h (by simp)
  · exact build_offsetsOK bs os dom c hb

/-- Witness for C2's amended theorem at the doctest diagram
`Diagram(x @ z, y @ w, [f0, f1], [0, 1])`. -/
theorem mkDiagram_some_offsetsOK_witness :
    mkDiagram ["x", "z"] ["y", "w"] [bF0, bF1] [0, 1] =
        some ⟨["x", "z"], ["y", "w"], [bF0, bF1], [0, 1]⟩ ∧
      offsetsOK ["x", "z"] [bF0, bF1] [0, 1] = true :=
  ⟨by decide,
    mkDiagram_some_offsetsOK ["x", "z"] ["y", "w"] [bF0, bF1] [0, 1]
      ⟨["x", "z"], ["y", "w"], [bF0, bF1], [0, 1]⟩ (by decide)⟩

/-! ## C5: dagger as involution, dagger vs. tensor -/

theorem Bx.dagger_dagger (b : Bx) : b.dagger.dagger = b := by
  cases b
  simp [Bx.dagger]

/-- C5 counterexample: with the doctest generators `f0 : x → y` and
`f1 : z → w`, `(f0 @ f1)[::-1]` has boxes `[f1†, f0†]` at offsets `[1, 0]`
while `f0[::-1] @ f1[::-1]` has boxes `[f0†, f1†]` at offsets `[0, 1]` —
they differ, as the module doctest records by inserting an
`interchange(0, 1)` between the two sides. -/
theorem dagger_tensor_not_equal :
    ((ofBox bF0).tensor (ofBox bF1)).dagger ≠
      ((ofBox bF0).dagger).tensor ((ofBox bF1).dagger) := by
  decide

/-- C5 (amended): the dagger is an involution on every diagram, and it
distributes over the tensor of two generators only up to one interchange:
`(f @ g)[::-1].interchange(0, 1) == f[::-1] @ g[::-1]` (as in the module
doctest); the plain equation `(f @ g)[::-1] == f[::-1] @ g[::-1]` fails. -/
theorem dagger_dagger_and_tensor_up_to_interchange :
    (∀ d : Diagram, d.dagger.dagger = d) ∧
      ∀ f g : Bx,
        (((ofBox f).tensor (ofBox g)).dagger).interchange 0 1 false =
          .ok (((ofBox f).dagger).tensor ((ofBox g).dagger)) := by
  constructor
  · intro d
    cases d
    simp [Diagram.dagger, Function.comp_def, Bx.dagger_dagger,
      List.map_reverse, List.map_map]
  · intro f g
    simp [Diagram.tensor, Diagram.dagger, ofBox, Diagram.interchange,
      unitInterchange, Bx.dagger]

/-! ## Splice helpers for the two-element replacement of `interchange` -/

section SpliceHelpers

variable {α : Type}

theorem splice_length {l : List α} {i : Nat} (h : i + 1 < l.length)
    (p q : α) :
    (l.take i ++ [p, q] ++ l.drop (i + 2)).length = l.length := by
  simp only [List.length_append, List.length_take, List.length_drop]
  simp only [List.length_cons, List.length_nil]
  omega

theorem splice_take {l : List α} {i : Nat} (h : i < l.length) (p q : α) :
    (l.take i ++ [p, q] ++ l.drop (i + 2)).take i = l.take i := by
  rw [List.append_assoc]
  exact List.take_left' (length_take_of_lt h)

theorem splice_drop {l : List α} {i : Nat} (h : i < l.length) (p q : α) :
    (l.take i ++ [p, q] ++ l.drop (i + 2)).drop (i + 2) = l.drop (i + 2) :=
  List.drop_left' (by simp [length_take_of_lt h])

theorem splice_getElem?_fst {l : List α} {i : Nat} (h : i < l.length)
    (p q : α) : (l.take i ++ [p, q] ++ l.drop (i + 2))[i]? = some p := by
  have hA : (l.take i).length = i := length_take_of_lt h
  rw [List.append_assoc, List.getElem?_append_right (le_of_eq hA), hA,
    Nat.sub_self]
  rfl

theorem splice_getElem?_snd {l : List α} {i : Nat} (h : i < l.length)
    (p q : α) :
    (l.take i ++ [p, q] ++ l.drop (i + 2))[i + 1]? = some q := by
  have hA : (l.take i).length = i := length_take_of_lt h
  rw [List.append_assoc,
    List.getElem?_append_right (le_trans (le_of_eq hA) (Nat.le_succ i)),
    hA, Nat.succ_sub (Nat.le_refl i), Nat.sub_self]
  simp

end SpliceHelpers

/-! ## C4: adjacent interchange — round trip and failure -/

/-- `interchange(i, i+1)` is the unit interchange at `i` once `i+1` is in
bounds. -/
theorem interchange_adj (d : Diagram) (i : Nat) (left : Bool)
    (h1 : i + 1 < d.boxes.length) :
    d.interchange i (i + 1) left = unitInterchange d i left := by
  unfold Diagram.interchange
  rw [if_pos ⟨Nat.lt_of_succ_lt h1, h1⟩,
    if_neg (Nat.ne_of_lt (Nat.lt_succ_self i)), if_neg (by omega),
    if_neg (by omega), Nat.min_eq_left (Nat.le_succ i)]

/-- C4 counterexample: `dUC` has wire-disjoint adjacent generators (the
unit at offset `1` is right of the counit at offset `0`:
`off0 ≥ off1 + len(box1.dom)` holds as `1 ≥ 0 + 1`), but the double
interchange gives boxes `[u, c]` at offsets `[0, 1]`, not `dUC`'s
`[1, 0]`. -/
theorem interchange_roundtrip_fails_on_dUC :
    ((1 : Int) ≥ 0 + (bC.dom.length : Int)) ∧
      (dUC.interchange 0 1 false).bind
          (fun e => e.interchange 0 1 false) =
        .ok ⟨["A"], ["B"], [bU, bC], [0, 1]⟩ ∧
      (⟨["A"], ["B"], [bU, bC], ([0, 1] : List Int)⟩ : Diagram) ≠ dUC := by
  refine ⟨by decide, by rfl, by decide⟩

/-- The right-of branch of the unit interchange, in explicit form. -/
theorem unitInterchange_ok_right {dd dc : Ty} {bx : List Bx}
    {of : List Int} {i : Nat} {b0 b1 : Bx} {o0 o1 : Int}
    (hb0 : bx[i]? = some b0) (hb1 : bx[i + 1]? = some b1)
    (ho0 : of[i]? = some o0) (ho1 : of[i + 1]? = some o1)
    (hR : o0 ≥ o1 + (b1.dom.length : Int)) :
    unitInterchange ⟨dd, dc, bx, of⟩ i false =
      .ok ⟨dd, dc, bx.take i ++ [b1, b0] ++ bx.drop (i + 2),
        of.take i ++ [o1, o0 - (b1.dom.length : Int) +
          (b1.cod.length : Int)] ++ of.drop (i + 2)⟩ := by
  simp only [unitInterchange, hb0, hb1, ho0, ho1]
  rw [if_neg (by simp), if_pos hR]

/-- The left-of branch of the unit interchange, in explicit form. -/
theorem unitInterchange_ok_left {dd dc : Ty} {bx : List Bx}
    {of : List Int} {i : Nat} {b0 b1 : Bx} {o0 o1 : Int}
    (hb0 : bx[i]? = some b0) (hb1 : bx[i + 1]? = some b1)
    (ho0 : of[i]? = some o0) (ho1 : of[i + 1]? = some o1)
    (hnR : ¬ o0 ≥ o1 + (b1.dom.length : Int))
    (hL : o1 ≥ o0 + (b0.cod.length : Int)) :
    unitInterchange ⟨dd, dc, bx, of⟩ i false =
      .ok ⟨dd, dc, bx.take i ++ [b1, b0] ++ bx.drop (i + 2),
        of.take i ++ [o1 - (b0.cod.length : Int) +
          (b0.dom.length : Int), o0] ++ of.drop (i + 2)⟩ := by
  simp only [unitInterchange, hb0, hb1, ho0, ho1]
  rw [if_neg (by simp), if_neg hnR, if_pos hL]

/-- C4 (amended): conjunction of the two halves of the claim.

1. For wire-disjoint adjacent generators the unit interchange is its own
inverse — except in the degenerate configuration where the earlier
generator has empty domain, the later one has empty codomain and
`off0 = off1 + len(box1.dom)` (and not additionally `len(box1.dom) =
len(box0.cod) = 0`): there the two right-of branches fire in succession
and the offsets come back permuted (cf. the counterexample).

2. When neither disjointness case holds, the unit interchange fails with
`InterchangerError(box0, box1)` ("do not commute"). -/
theorem interchange_roundtrip_and_commute_error :
    (∀ (d : Diagram) (i : Nat) (b0 b1 : Bx) (o0 o1 : Int),
      d.boxes[i]? = some b0 → d.boxes[i + 1]? = some b1 →
      d.offsets[i]? = some o0 → d.offsets[i + 1]? = some o1 →
      (o0 ≥ o1 + (b1.dom.length : Int) ∨
        o1 ≥ o0 + (b0.cod.length : Int)) →
      ¬ (b0.dom.length = 0 ∧ b1.cod.length = 0 ∧
          o0 = o1 + (b1.dom.length : Int) ∧
          ¬ (b1.dom.length = 0 ∧ b0.cod.length = 0)) →
      (d.interchange i (i + 1) false).bind
        (fun e => e.interchange i (i + 1) false) = .ok d) ∧
    ∀ (d : Diagram) (i : Nat) (b0 b1 : Bx) (o0 o1 : Int),
      d.boxes[i]? = some b0 → d.boxes[i + 1]? = some b1 →
      d.offsets[i]? = some o0 → d.offsets[i + 1]? = some o1 →
      ¬ (o0 ≥ o1 + (b1.dom.length : Int)) →
      ¬ (o1 ≥ o0 + (b0.cod.length : Int)) →
      d.interchange i (i + 1) false = .error (.interchanger b0 b1) := by
  constructor
  · intro d i b0 b1 o0 o1 hb0 hb1 ho0 ho1 hdisj hnd
    obtain ⟨dd, dc, dbx, dof⟩ := d
    simp only at hb0 hb1 ho0 ho1 ⊢
    have hbl : i + 1 < dbx.length := (List.getElem?_eq_some.mp hb1).1
    have hol : i + 1 < dof.length := (List.getElem?_eq_some.mp ho1).1
    have hbi : i < dbx.length := Nat.lt_of_succ_lt hbl
    have hoi : i < dof.length := Nat.lt_of_succ_lt hol
    rw [interchange_adj _ _ _ hbl]
    -- facts about every spliced pair: gets, restore, bounds
    have hbsp : ∀ p q : Bx,
        (dbx.take i ++ [p, q] ++ dbx.drop (i + 2)).take i ++ [b0, b1] ++
          (dbx.take i ++ [p, q] ++ dbx.drop (i + 2)).drop (i + 2) = dbx := by
      intro p q
      rw [splice_take hbi, splice_drop hbi]
      exact splice_self hb0 hb1
    have hosp : ∀ p q : Int,
        (dof.take i ++ [p, q] ++ dof.drop (i + 2)).take i ++ [o0, o1] ++
          (dof.take i ++ [p, q] ++ dof.drop (i + 2)).drop (i + 2) = dof := by
      intro p q
      rw [splice_take hoi, splice_drop hoi]
      exact splice_self ho0 ho1
    by_cases hR : o0 ≥ o1 + (b1.dom.length : Int)
    · rw [unitInterchange_ok_right hb0 hb1 ho0 ho1 hR]
      simp only [Except.bind]
      have hebl : i + 1 <
          (dbx.take i ++ [b1, b0] ++ dbx.drop (i + 2)).length := by
        rw [splice_length hbl]; exact hbl
      rw [interchange_adj _ _ _ hebl]
      by_cases hB1 : o1 ≥ (o0 - (b1.dom.length : Int) +
          (b1.cod.length : Int)) + (b0.dom.length : Int)
      · -- both right-of in a row: only the degenerate shape, which the
        -- exclusion hypothesis reduces to four empty boundaries
        have hlc1 : b1.cod.length = 0 := by omega
        have hld0 : b0.dom.length = 0 := by omega
        have ho01 : o0 = o1 + (b1.dom.length : Int) := by omega
        have hrest : b1.dom.length = 0 ∧ b0.cod.length = 0 := by
          by_contra hk
          exact hnd ⟨hld0, hlc1, ho01, hk⟩
        rw [unitInterchange_ok_right (splice_getElem?_fst hbi b1 b0)
          (splice_getElem?_snd hbi b1 b0) (splice_getElem?_fst hoi _ _)
          (splice_getElem?_snd hoi _ _) hB1]
        rw [show o0 - (b1.dom.length : Int) + (b1.cod.length : Int) = o0 by
            omega,
          show o1 - (b0.dom.length : Int) + (b0.cod.length : Int) = o1 by
            omega]
        rw [hbsp, hosp]
      · -- right-of then left-of restores the diagram
        rw [unitInterchange_ok_left (splice_getElem?_fst hbi b1 b0)
          (splice_getElem?_snd hbi b1 b0) (splice_getElem?_fst hoi _ _)
          (splice_getElem?_snd hoi _ _) hB1 (by omega)]
        rw [show (o0 - (b1.dom.length : Int) + (b1.cod.length : Int)) -
            (b1.cod.length : Int) + (b1.dom.length : Int) = o0 by omega]
        rw [hbsp, hosp]
    · -- the left-of branch fired first; right-of on the swap restores
      have hL : o1 ≥ o0 + (b0.cod.length : Int) := by
        rcases hdisj with h | h
        · exact absurd h hR
        · exact h
      rw [unitInterchange_ok_left hb0 hb1 ho0 ho1 hR hL]
      simp only [Except.bind]
      have hebl : i + 1 <
          (dbx.take i ++ [b1, b0] ++ dbx.drop (i + 2)).length := by
        rw [splice_length hbl]; exact hbl
      rw [interchange_adj _ _ _ hebl]
      rw [unitInterchange_ok_right (splice_getElem?_fst hbi b1 b0)
        (splice_getElem?_snd hbi b1 b0) (splice_getElem?_fst hoi _ _)
        (splice_getElem?_snd hoi _ _) (by omega)]
      rw [show (o1 - (b0.cod.length : Int) + (b0.dom.length : Int)) -
          (b0.dom.length : Int) + (b0.cod.length : Int) = o1 by omega]
      rw [hbsp, hosp]
  · intro d i b0 b1 o0 o1 hb0 hb1 ho0 ho1 hnR hnL
    have hbl : i + 1 < d.boxes.length := (List.getElem?_eq_some.mp hb1).1
    rw [interchange_adj _ _ _ hbl]
    simp only [unitInterchange, hb0, hb1, ho0, ho1]
    rw [if_neg (by simp), if_neg hnR, if_neg hnL]

/-- Witness for C4's amended theorem: the doctest pair `f0 @ f1`
(wire-disjoint, non-degenerate) round-trips, and the sequential pair
`f0 >> g` (shared wire `y`) raises the "do not commute" error. -/
theorem interchange_roundtrip_and_commute_error_witness :
    (((ofBox bF0).tensor (ofBox bF1)).interchange 0 1 false).bind
        (fun e => e.interchange 0 1 false) =
      .ok ((ofBox bF0).tensor (ofBox bF1)) ∧
    ((ofBox bF0).then (ofBox bG)).interchange 0 1 false =
      .error (.interchanger bF0 bG) :=
  ⟨interchange_roundtrip_and_commute_error.1
      ((ofBox bF0).tensor (ofBox bF1)) 0 bF0 bF1 0 1 (by decide)
      (by decide) (by decide) (by decide) (by decide) (by decide),
    interchange_roundtrip_and_commute_error.2
      ((ofBox bF0).then (ofBox bG)) 0 bF0 bG 0 0 (by decide) (by decide)
      (by decide) (by decide) (by decide) (by decide)⟩

/-! ## C1: `interchange(i, j)` for distant indices -/

section MoveHelpers

variable {α : Type}

theorem insertIdx_append_of_length {A : List α} {n : Nat}
    (h : A.length = n) (B : List α) (x : α) :
    (A ++ B).insertIdx n x = A ++ x :: B := by
  subst h
  exact insertIdx_append_cons A B x

theorem eraseIdx_insertIdx_self {l : List α} {i : Nat} {a : α}
    (h : l[i]? = some a) : (l.eraseIdx i).insertIdx i a = l := by
  have hi : i < l.length := (List.getElem?_eq_some.mp h).1
  rw [List.eraseIdx_eq_take_drop_succ,
    insertIdx_append_of_length (length_take_of_lt hi) _ _]
  exact take_cons_drop h

/-- Erasing just below the splice point gives back the erase of the
original list, with the first inserted element in place. -/
theorem splice_eraseIdx_succ {l : List α} {i : Nat}
    (h : i < l.length) (p q : α) :
    (l.take i ++ [p, q] ++ l.drop (i + 2)).eraseIdx (i + 1) =
      l.take i ++ p :: l.drop (i + 2) := by
  rw [List.eraseIdx_eq_take_drop_succ, splice_drop h, List.append_assoc,
    List.take_append_eq_append_take,
    List.take_of_length_le (le_of_eq_of_le (length_take_of_lt h)
      (Nat.le_succ i)), length_take_of_lt h,
    show i + 1 - i = 1 from by omega]
  simp

/-- Erasing at the splice point keeps the second inserted element. -/
theorem splice_eraseIdx_self {l : List α} {i : Nat}
    (h : i < l.length) (p q : α) :
    (l.take i ++ [p, q] ++ l.drop (i + 2)).eraseIdx i =
      l.take i ++ q :: l.drop (i + 2) := by
  rw [List.eraseIdx_eq_take_drop_succ, splice_take h, List.append_assoc,
    List.drop_append_eq_append_drop,
    List.drop_eq_nil_of_le (le_of_eq_of_le (length_take_of_lt h)
      (Nat.le_succ i)), length_take_of_lt h,
    show i + 1 - i = 1 from by omega]
  simp

end MoveHelpers

/-- Success shape of the unit interchange: the two boxes exist and come
back swapped, with domain and codomain untouched. -/
theorem unitInterchange_ok_shape {d : Diagram} {lo : Nat} {left : Bool}
    {r : Diagram} (h : unitInterchange d lo left = .ok r) :
    ∃ b0 b1, d.boxes[lo]? = some b0 ∧ d.boxes[lo + 1]? = some b1 ∧
      r.dom = d.dom ∧ r.cod = d.cod ∧
      r.boxes = d.boxes.take lo ++ [b1, b0] ++ d.boxes.drop (lo + 2) := by
  rcases hb0 : d.boxes[lo]? with _ | b0 <;>
    rcases hb1 : d.boxes[lo + 1]? with _ | b1 <;>
    rcases ho0 : d.offsets[lo]? with _ | o0 <;>
    rcases ho1 : d.offsets[lo + 1]? with _ | o1 <;>
    simp only [unitInterchange, hb0, hb1, ho0, ho1] at h <;>
    try exact Except.noConfusion h
  refine ⟨b0, b1, rfl, rfl, ?_⟩
  split_ifs at h
  all_goals first
  | exact Except.noConfusion h
  | (injection h with h'
     rw [← h']
     exact ⟨rfl, rfl, rfl⟩)

/-- Success shape of the in-loop adjacent step. -/
theorem adjStep_ok_shape {d : Diagram} {lo : Nat} {left : Bool}
    {r : Diagram} (h : adjStep d lo left = .ok r) :
    unitInterchange d lo left = .ok r := by
  unfold adjStep at h
  split_ifs at h
  exact h

/-- The upward unit-step loop moves box `i` to position `i + n`, shifting
the boxes in between one position down. -/
theorem goUp_ok_boxes :
    ∀ (n : Nat) (d : Diagram) (i : Nat) (b : Bx) (r : Diagram),
      d.boxes[i]? = some b → goUp d i n false = .ok r →
      r.dom = d.dom ∧ r.cod = d.cod ∧
        r.boxes = (d.boxes.eraseIdx i).insertIdx (i + n) b := by
  intro n
  induction n with
  | zero =>
    intro d i b r hb h
    injection h with h'
    rw [← h']
    exact ⟨rfl, rfl, (eraseIdx_insertIdx_self hb).symm⟩
  | succ n ih =>
    intro d i b r hb h
    rw [goUp] at h
    rcases hstep : adjStep d i false with e | d1 <;> rw [hstep] at h <;>
      simp only [Except.bind] at h
    · exact Except.noConfusion h
    · obtain ⟨b0, b1, hb0, hb1, hdom, hcod, hbx⟩ :=
        unitInterchange_ok_shape (adjStep_ok_shape hstep)
      have hbb : b0 = b := by
        rw [hb0] at hb
        injection hb
      subst hbb
      have hib : i < d.boxes.length := (List.getElem?_eq_some.mp hb0).1
      have hd1get : d1.boxes[i + 1]? = some b0 := by
        rw [hbx]
        exact splice_getElem?_snd hib b1 b0
      obtain ⟨h1, h2, h3⟩ := ih d1 (i + 1) b0 r hd1get h
      refine ⟨h1.trans hdom, h2.trans hcod, ?_⟩
      rw [h3, hbx, splice_eraseIdx_succ hib b1 b0,
        show d.boxes.eraseIdx i = d.boxes.take i ++ b1 :: d.boxes.drop (i + 2)
          from by rw [List.eraseIdx_eq_take_drop_succ,
            drop_getElem?_cons hb1],
        show i + 1 + n = i + (n + 1) from by omega]

/-- The downward unit-step loop moves box `i` to position `i - n`,
shifting the boxes in between one position up. -/
theorem goDown_ok_boxes :
    ∀ (n : Nat) (d : Diagram) (i : Nat) (b : Bx) (r : Diagram),
      n ≤ i → d.boxes[i]? = some b → goDown d i n false = .ok r →
      r.dom = d.dom ∧ r.cod = d.cod ∧
        r.boxes = (d.boxes.eraseIdx i).insertIdx (i - n) b := by
  intro n
  induction n with
  | zero =>
    intro d i b r _ hb h
    injection h with h'
    rw [← h']
    exact ⟨rfl, rfl, (eraseIdx_insertIdx_self hb).symm⟩
  | succ n ih =>
    intro d i b r hni hb h
    obtain ⟨m, rfl⟩ : ∃ m, i = m + 1 := ⟨i - 1, by omega⟩
    rw [goDown] at h
    simp only [Nat.add_sub_cancel] at h
    rcases hstep : adjStep d m false with e | d1 <;> rw [hstep] at h <;>
      simp only [Except.bind] at h
    · exact Except.noConfusion h
    · obtain ⟨b0, b1, hb0, hb1, hdom, hcod, hbx⟩ :=
        unitInterchange_ok_shape (adjStep_ok_shape hstep)
      have hbb : b1 = b := by
        rw [hb1] at hb
        injection hb
      subst hbb
      have hmb : m < d.boxes.length := (List.getElem?_eq_some.mp hb0).1
      have hd1get : d1.boxes[m]? = some b1 := by
        rw [hbx]
        exact splice_getElem?_fst hmb b1 b0
      obtain ⟨h1, h2, h3⟩ := ih d1 m b1 r (by omega) hd1get h
      refine ⟨h1.trans hdom, h2.trans hcod, ?_⟩
      rw [h3, hbx, splice_eraseIdx_self hmb b1 b0,
        show d.boxes.eraseIdx (m + 1) =
            d.boxes.take m ++ b0 :: d.boxes.drop (m + 2) from by
          rw [List.eraseIdx_eq_take_drop_succ, List.take_succ, hb0]
          simp,
        show m + 1 - (n + 1) = m - n from by omega]

/-- C1 counterexample: on three generators on disjoint wires,
`interchange(0, 2)` succeeds but rotates the segment — the result's boxes
are `[b, c, a]` with `result.boxes[0]` the box formerly at position `1`,
not the one at position `2` as the claim predicts. -/
theorem interchange_far_not_transposition :
    (dRot.interchange 0 2 false).map (fun r => (r.boxes[0]?, r.boxes[2]?)) =
        .ok (some ⟨"b", ["y"], ["y"], false⟩, some ⟨"a", ["x"], ["x"], false⟩) ∧
      dRot.boxes[2]? = some ⟨"c", ["z"], ["z"], false⟩ ∧
      (⟨"b", ["y"], ["y"], false⟩ : Bx) ≠ ⟨"c", ["z"], ["z"], false⟩ := by
  refine ⟨by rfl, by rfl, by decide⟩

/-- C1 (amended): for in-bounds `i, j`, a successful
`d.interchange(i, j)` returns `d` with the box at position `i` moved to
position `j` and the boxes strictly between shifted one position towards
`i` (a rotation of the segment), domain and codomain unchanged — i.e.
`result.boxes = insertIdx j (eraseIdx i d.boxes) d.boxes[i]`; for
`|i − j| > 1` this is not the transposition of positions `i` and `j`.  On
failure the error of the first failing unit step is propagated unchanged
and no diagram is produced (the operation is all-or-nothing). -/
theorem interchange_moves_box :
    ∀ (d : Diagram) (i j : Nat) (b : Bx) (r : Diagram),
      i < d.boxes.length → j < d.boxes.length → d.boxes[i]? = some b →
      d.interchange i j false = .ok r →
      r.dom = d.dom ∧ r.cod = d.cod ∧
        r.boxes = (d.boxes.eraseIdx i).insertIdx j b := by
  intro d i j b r hi hj hb h
  unfold Diagram.interchange at h
  rw [if_pos ⟨hi, hj⟩] at h
  by_cases hij : i = j
  · subst hij
    rw [if_pos rfl] at h
    injection h with h'
    rw [← h']
    exact ⟨rfl, rfl, (eraseIdx_insertIdx_self hb).symm⟩
  · rw [if_neg hij] at h
    by_cases hdown : j + 1 < i
    · rw [if_pos hdown] at h
      have := goDown_ok_boxes (i - j) d i b r (by omega) hb h
      rwa [show i - (i - j) = j from by omega] at this
    · rw [if_neg hdown] at h
      by_cases hup : i + 1 < j
      · rw [if_pos hup] at h
        have := goUp_ok_boxes (j - i) d i b r hb h
        rwa [show i + (j - i) = j from by omega] at this
      · rw [if_neg hup] at h
        -- adjacent: j = i + 1 or i = j + 1
        rcases (by omega : j = i + 1 ∨ i = j + 1) with hadj | hadj
        · subst hadj
          rw [Nat.min_eq_left (Nat.le_succ i)] at h
          obtain ⟨b0, b1, hb0, hb1, hdom, hcod, hbx⟩ :=
            unitInterchange_ok_shape h
          have hbb : b0 = b := by
            rw [hb0] at hb
            injection hb
          subst hbb
          refine ⟨hdom, hcod, ?_⟩
          rw [hbx,
            show d.boxes.eraseIdx i =
                d.boxes.take i ++ b1 :: d.boxes.drop (i + 2) from by
              rw [List.eraseIdx_eq_take_drop_succ, drop_getElem?_cons hb1],
            show d.boxes.take i ++ b1 :: d.boxes.drop (i + 2) =
                (d.boxes.take i ++ [b1]) ++ d.boxes.drop (i + 2) from by
              simp,
            insertIdx_append_of_length
              (by simp [length_take_of_lt hi])]
          simp
        · subst hadj
          rw [Nat.min_eq_right (Nat.le_succ j)] at h
          obtain ⟨b0, b1, hb0, hb1, hdom, hcod, hbx⟩ :=
            unitInterchange_ok_shape h
          have hbb : b1 = b := by
            rw [hb1] at hb
            injection hb
          subst hbb
          refine ⟨hdom, hcod, ?_⟩
          have hjb : j < d.boxes.length := (List.getElem?_eq_some.mp hb0).1
          rw [hbx,
            show d.boxes.eraseIdx (j + 1) =
                d.boxes.take j ++ b0 :: d.boxes.drop (j + 2) from by
              rw [List.eraseIdx_eq_take_drop_succ, List.take_succ, hb0]
              simp,
            show d.boxes.take j ++ b0 :: d.boxes.drop (j + 2) =
                d.boxes.take j ++ (b0 :: d.boxes.drop (j + 2)) from by simp,
            insertIdx_append_of_length (length_take_of_lt hjb)]
          simp

/-- Witness for C1's amended theorem at `dRot.interchange(0, 2)`. -/
theorem interchange_moves_box_witness :
    rRot.dom = dRot.dom ∧ rRot.cod = dRot.cod ∧
      rRot.boxes =
        (dRot.boxes.eraseIdx 0).insertIdx 2 ⟨"a", ["x"], ["x"], false⟩ :=
  interchange_moves_box dRot 0 2 ⟨"a", ["x"], ["x"], false⟩ rRot
    (by decide) (by decide) (by rfl) (by rfl)

/-! ## C3 and C6: `normal_form` -/

/-- A pass that yields nothing leaves the diagram unchanged. -/
theorem passFrom_nil_snd :
    ∀ (n : Nat) (d : Diagram) (i : Nat) (left : Bool),
      (passFrom left d i n).2 = [] → (passFrom left d i n).1 = d := by
  intro n
  induction n with
  | zero => intro d i left _; rfl
  | succ n ih =>
    intro d i left h
    rw [passFrom] at h ⊢
    by_cases hmc : moveCond d i left
    · rw [if_pos hmc] at h ⊢
      rcases hu : unitInterchange d i left with e | d1
      · rfl
      · rw [hu] at h
        simp at h
    · rw [if_neg hmc] at h ⊢
      exact ih d (i + 1) left h

theorem checkCache_some :
    ∀ (ems cache cache' : List Diagram), checkCache ems cache = some cache' →
      ems.Nodup ∧ (∀ e ∈ ems, e ∉ cache) ∧
        cache' = ems.reverse ++ cache := by
  intro ems
  induction ems with
  | nil =>
    intro cache cache' h
    injection h with h'
    exact ⟨List.nodup_nil, by simp, by simp [← h']⟩
  | cons e es ih =>
    intro cache cache' h
    rw [checkCache] at h
    by_cases hm : e ∈ cache
    · rw [if_pos hm] at h
      exact absurd h (by simp)
    · rw [if_neg hm] at h
      obtain ⟨h1, h2, h3⟩ := ih (e :: cache) cache' h
      refine ⟨List.nodup_cons.mpr ⟨fun hc => (h2 e hc) (by simp), h1⟩,
        ?_, ?_⟩
      · intro x hx
        rcases List.mem_cons.mp hx with rfl | hx'
        · exact hm
        · intro hc
          exact (h2 x hx') (by simp [hc])
      · rw [h3]
        simp

theorem checkCache_some_of :
    ∀ (ems cache : List Diagram), ems.Nodup → (∀ e ∈ ems, e ∉ cache) →
      checkCache ems cache = some (ems.reverse ++ cache) := by
  intro ems
  induction ems with
  | nil => intro cache _ _; simp [checkCache]
  | cons e es ih =>
    intro cache hnd hdisj
    rw [checkCache, if_neg (hdisj e (by simp))]
    rw [ih (e :: cache) (List.nodup_cons.mp hnd).2 ?_]
    · simp
    · intro x hx hxc
      rcases List.mem_cons.mp hxc with rfl | hxc'
      · exact (List.nodup_cons.mp hnd).1 hx
      · exact hdisj x (by simp [hx]) hxc'

/-- `normal_form` agrees with plain fixed-point iteration of `normalize`
whenever the emitted rewrite steps never repeat. -/
theorem normalFormAux_eq_run :
    ∀ (fuel : Nat) (d : Diagram) (cache : List Diagram),
      (∀ x ∈ cache, x ∉ normalizeEmits fuel d false) →
      (normalizeEmits fuel d false).Nodup →
      normalFormAux false fuel d cache =
        (normalizeRun fuel d false).map some := by
  intro fuel
  induction fuel with
  | zero => intro d cache _ _; rfl
  | succ fuel ih =>
    intro d cache hcache hnd
    rcases hrp : runPass d false with ⟨d', ems⟩
    rw [normalFormAux, hrp]
    rw [normalizeRun, hrp]
    rw [normalizeEmits, hrp] at hcache hnd
    rcases ems with _ | ⟨em, ems'⟩
    · rfl
    · simp only [List.isEmpty_cons, if_false, Bool.false_eq_true] at hcache hnd ⊢
      rw [List.nodup_append] at hnd
      obtain ⟨hems, hrest, hdisj⟩ := hnd
      rw [checkCache_some_of (em :: ems') cache hems ?_]
      · apply ih
        · intro x hx
          have hx2 : x ∈ (em :: ems') ∨ x ∈ cache := by
            rcases List.mem_append.mp hx with h1 | h2
            · exact Or.inl (List.mem_reverse.mp h1)
            · exact Or.inr h2
          rcases hx2 with hx' | hx'
          · exact fun hr => hdisj hx' hr
          · exact fun hr => hcache x hx' (List.mem_append.mpr (Or.inr hr))
        · exact hrest
      · intro e he hec
        exact hcache e hec (List.mem_append.mpr (Or.inl he))

/-- `normal_form` fails with the non-termination error whenever the
rewrite sequence revisits an emitted diagram within the fuel bound. -/
theorem normalFormAux_none_of_dup :
    ∀ (fuel : Nat) (d : Diagram) (cache : List Diagram),
      (¬ (normalizeEmits fuel d false).Nodup ∨
        ∃ x ∈ cache, x ∈ normalizeEmits fuel d false) →
      normalFormAux false fuel d cache = some none := by
  intro fuel
  induction fuel with
  | zero =>
    intro d cache h
    rcases h with h | ⟨x, _, hx⟩
    · exact absurd List.nodup_nil h
    · exact absurd hx (by simp [normalizeEmits])
  | succ fuel ih =>
    intro d cache h
    rcases hrp : runPass d false with ⟨d', ems⟩
    rw [normalizeEmits, hrp] at h
    rw [normalFormAux, hrp]
    rcases ems with _ | ⟨em, ems'⟩
    · rcases h with h | ⟨x, _, hx⟩
      · exact absurd List.nodup_nil h
      · exact absurd hx (by simp)
    · simp only [List.isEmpty_cons, if_false, Bool.false_eq_true] at h ⊢
      rcases hcc : checkCache (em :: ems') cache with _ | cache'
      · rfl
      · obtain ⟨hems, hdisj0, hcEq⟩ := checkCache_some _ _ _ hcc
        apply ih
        rcases h with h | ⟨x, hxc, hx⟩
        · rw [List.nodup_append] at h
          push_neg at h
          by_cases hrest : (normalizeEmits fuel d' false).Nodup
          · right
            have hnd2 := h hems hrest
            rw [List.disjoint_left] at hnd2
            push_neg at hnd2
            obtain ⟨x, hx1, hx2⟩ := hnd2
            have hxc' : x ∈ cache' := by
              rw [hcEq]
              rcases List.mem_cons.mp hx1 with rfl | hmem
              · simp
              · simp [hmem]
            exact ⟨x, hxc', hx2⟩
          · exact Or.inl hrest
        · rcases List.mem_append.mp hx with hx' | hx'
          · exact absurd hxc (hdisj0 x hx')
          · exact Or.inr ⟨x, by rw [hcEq]; simp [hxc], hx'⟩

/-- C3: `normal_form` (with enough pass fuel) fails with the
non-termination error exactly when the `normalize` sequence repeats an
emitted diagram — in particular on `Box('s0', Ty(), Ty()) @ Box('s1',
Ty(), Ty())` — and returns the fixed point reached by `normalize` when
the sequence reaches one without repetition. -/
theorem normal_form_cycle_or_fixed_point :
    (∀ (fuel : Nat) (d : Diagram),
      ¬ (normalizeEmits fuel d false).Nodup →
      normalFormFuel fuel d = some none) ∧
    (∀ (fuel : Nat) (d r : Diagram),
      (normalizeEmits fuel d false).Nodup →
      normalizeRun fuel d false = some r →
      normalFormFuel fuel d = some (some r)) ∧
    normalFormFuel 3 ((ofBox bS0).tensor (ofBox bS1)) = some none := by
  refine ⟨?_, ?_, by decide⟩
  · intro fuel d h
    exact normalFormAux_none_of_dup fuel d [] (Or.inl h)
  · intro fuel d r hnd hrun
    rw [normalFormFuel,
      normalFormAux_eq_run fuel d [] (by simp) hnd, hrun]
    rfl

/-- Witness for C3 at the Eckmann–Hilton pair (the spec's own example):
its emitted sequence repeats within 3 passes, so `normal_form` raises the
non-termination error. -/
theorem normal_form_cycle_or_fixed_point_witness :
    normalFormFuel 3 ((ofBox bS0).tensor (ofBox bS1)) = some none :=
  normal_form_cycle_or_fixed_point.1 3 ((ofBox bS0).tensor (ofBox bS1))
    (by decide)

/-- A successful `normal_form` result is a fixed point of the pass. -/
theorem normalFormAux_ok_fixed :
    ∀ (fuel : Nat) (left : Bool) (d r : Diagram) (cache : List Diagram),
      normalFormAux left fuel d cache = some (some r) →
      runPass r left = (r, []) := by
  intro fuel
  induction fuel with
  | zero => intro left d r cache h; exact absurd h (by simp [normalFormAux])
  | succ fuel ih =>
    intro left d r cache h
    rcases hrp : runPass d left with ⟨d', ems⟩
    rw [normalFormAux, hrp] at h
    rcases ems with _ | ⟨em, ems'⟩
    · simp only [List.isEmpty_nil, if_true] at h
      injection h with h'
      injection h' with h''
      subst h''
      have hd' : d' = d := by
        have h2 := passFrom_nil_snd (d.boxes.length - 1) d 0 left
        rw [show passFrom left d 0 (d.boxes.length - 1) = runPass d left
          from rfl, hrp] at h2
        exact h2 rfl
      rw [hrp, hd']
    · simp only [List.isEmpty_cons, if_false, Bool.false_eq_true] at h
      rcases hcc : checkCache (em :: ems') cache with _ | cache'
      · rw [hcc] at h
        simp at h
      · rw [hcc] at h
        exact ih left d' r cache' h

/-- C6: `normal_form` is idempotent whenever it terminates: the returned
diagram is a fixed point of the pass, so running `normal_form` on it (any
positive fuel) returns it unchanged. -/
theorem normal_form_idempotent :
    ∀ (fuel fuel' : Nat) (d r : Diagram),
      normalFormFuel fuel d = some (some r) →
      normalFormFuel (fuel' + 1) r = some (some r) := by
  intro fuel fuel' d r h
  have hfix := normalFormAux_ok_fixed fuel false d r [] h
  rw [normalFormFuel, normalFormAux, hfix]
  rfl

/-- Witness for C6 at the doctest diagram `Id(x) @ f1 >> f0 @ Id(w)`,
whose normal form is `f0 @ f1`. -/
theorem normal_form_idempotent_witness :
    normalFormFuel 1 ((ofBox bF0).tensor (ofBox bF1)) =
      some (some ((ofBox bF0).tensor (ofBox bF1))) :=
  normal_form_idempotent 2 0
    (((idD ["x"]).tensor (ofBox bF1)).then ((ofBox bF0).tensor (idD ["w"])))
    ((ofBox bF0).tensor (ofBox bF1)) (by decide)

/-! ## C8: `depth` via foliation -/

/-- C8 counterexample: `f : x → Ty()` followed by `g : Ty() → y` is a
sequential composite of two generators of matching (empty) type, yet its
depth is `1`, not `2` — `foliate` absorbs the second generator into the
first slice because the two are wire-disjoint across the empty middle
type. -/
theorem depth_seq_empty_type_is_one :
    (⟨"f", ["x"], [], false⟩ : Bx).cod = (⟨"g", [], ["y"], false⟩ : Bx).dom ∧
      ((ofBox ⟨"f", ["x"], [], false⟩).then
        (ofBox ⟨"g", [], ["y"], false⟩)).depth = 1 :=
  ⟨rfl, by decide⟩

/-- C8 (amended): `depth` is the number of maximal slices of `foliate`;
identity diagrams have depth 0, single generators depth 1, the tensor of
two generators depth 1, and the sequential composite of two generators of
matching **nonempty** type depth 2 (over the empty type the two
generators merge into one slice of depth 1, cf. the counterexample). -/
theorem depth_values :
    (∀ d : Diagram, d.depth = (foliateSlices d).length) ∧
    (∀ t : Ty, (idD t).depth = 0) ∧
    (∀ b : Bx, (ofBox b).depth = 1) ∧
    (∀ b1 b2 : Bx, ((ofBox b1).tensor (ofBox b2)).depth = 1) ∧
    (∀ b1 b2 : Bx, b1.cod = b2.dom → b2.dom ≠ [] →
      ((ofBox b1).then (ofBox b2)).depth = 2) := by
  refine ⟨fun d => rfl, ?_, ?_, ?_, ?_⟩
  · intro t
    simp [Diagram.depth, foliateSlices, foliateOuter, idD]
  · intro b
    simp [Diagram.depth, foliateSlices, foliateOuter, foliateInner, ofBox]
  · intro b1 b2
    set d : Diagram := (ofBox b1).tensor (ofBox b2) with hd
    have hlen2 : d.boxes.length = 2 := by simp [hd, Diagram.tensor, ofBox]
    by_cases hz : b1.cod = [] ∧ b2.dom = []
    · -- degenerate corner: both boundary types empty, the second box is
      -- "left of" the first and gets interchanged into the slice
      have hIR : isRightOf d 0 = some false := by
        show (if (0 : Int) ≥
              (0 + (b1.cod.length : Int)) + (b2.dom.length : Int)
            then some false
          else if (0 + (b1.cod.length : Int)) ≥ 0 + (b1.cod.length : Int)
            then some true else none) = some false
        rw [if_pos (by simp [hz.1, hz.2])]
      have hadj : d.interchange 1 0 false = unitInterchange d 0 false := by
        unfold Diagram.interchange
        rw [if_pos ⟨by omega, by omega⟩, if_neg (by omega),
          if_neg (by omega), if_neg (by omega), Nat.min_eq_right (by omega)]
      have hIC := @unitInterchange_ok_right (b1.dom ++ b2.dom)
        (b1.cod ++ b2.cod) [b1, b2] [0, 0 + (b1.cod.length : Int)] 0 b1 b2 0
        (0 + (b1.cod.length : Int)) rfl rfl rfl rfl
        (by simp [hz.1, hz.2])
      have hIC2 : d.interchange 1 0 false = .ok
          ⟨b1.dom ++ b2.dom, b1.cod ++ b2.cod,
            List.take 0 [b1, b2] ++ [b2, b1] ++ List.drop 2 [b1, b2],
            List.take 0 [0, 0 + (b1.cod.length : Int)] ++
              [0 + (b1.cod.length : Int),
                0 - (b2.dom.length : Int) + (b2.cod.length : Int)] ++
              List.drop 2 [0, 0 + (b1.cod.length : Int)]⟩ := by
        rw [hadj]
        exact hIC
      have hMIS : moveInSlice d 0 0 1 = some
          ⟨b1.dom ++ b2.dom, b1.cod ++ b2.cod,
            List.take 0 [b1, b2] ++ [b2, b1] ++ List.drop 2 [b1, b2],
            List.take 0 [0, 0 + (b1.cod.length : Int)] ++
              [0 + (b1.cod.length : Int),
                0 - (b2.dom.length : Int) + (b2.cod.length : Int)] ++
              List.drop 2 [0, 0 + (b1.cod.length : Int)]⟩ := by
        simp [moveInSlice, moveInSliceF, hIR, hIC2, Except.toOption]
      show (foliateOuter (d.boxes.length + 1) d 0 []).length = 1
      rw [hlen2]
      norm_num [foliateOuter, foliateInner, hMIS, hlen2]
    · have hpos : 0 < b1.cod.length + b2.dom.length := by
        rcases not_and_or.mp hz with h | h
        · have := List.length_pos.mpr h
          omega
        · have := List.length_pos.mpr h
          omega
      have hIR : isRightOf d 0 = some true := by
        show (if (0 : Int) ≥
              (0 + (b1.cod.length : Int)) + (b2.dom.length : Int)
            then some false
          else if (0 + (b1.cod.length : Int)) ≥ 0 + (b1.cod.length : Int)
            then some true else none) = some true
        rw [if_neg (by omega), if_pos (by omega)]
      have hMIS : moveInSlice d 0 0 1 = some d := by
        simp [moveInSlice, moveInSliceF, hIR]
      show (foliateOuter (d.boxes.length + 1) d 0 []).length = 1
      rw [hlen2]
      norm_num [foliateOuter, foliateInner, hMIS, hlen2]
  · intro b1 b2 h hne
    have hlen : 0 < b2.dom.length := List.length_pos.mpr hne
    have h1 : ¬ ((0 : Int) ≥ 0 + (b2.dom.length : Int)) := by omega
    have h2 : ¬ ((0 : Int) ≥ 0 + (b1.cod.length : Int)) := by
      rw [h]
      omega
    set d : Diagram := (ofBox b1).then (ofBox b2) with hd
    have hIR : isRightOf d 0 = none := by
      show (if (0 : Int) ≥ 0 + (b2.dom.length : Int) then some false
        else if (0 : Int) ≥ 0 + (b1.cod.length : Int) then some true
        else none) = none
      rw [if_neg h1, if_neg h2]
    have hMIS : moveInSlice d 0 0 1 = none := by
      simp [moveInSlice, moveInSliceF, hIR]
    have hlen2 : d.boxes.length = 2 := by simp [hd, Diagram.then, ofBox]
    show (foliateOuter (d.boxes.length + 1) d 0 []).length = 2
    rw [hlen2]
    norm_num [foliateOuter, foliateInner, hMIS, hlen2]

/-- Witness for C8's amended theorem at the doctest pair `f : x → y`,
`g : y → x`. -/
theorem depth_values_witness :
    bF0.cod = bG.dom ∧ ((ofBox bF0).then (ofBox bG)).depth = 2 :=
  ⟨rfl, depth_values.2.2.2.2 bF0 bG rfl (by decide)⟩

/-! ## C7: functoriality of `MonoidalFunctor.__call__` -/

theorem mapTy_append (F : MonFunctor) (s t : Ty) :
    mapTy F (s ++ t) = mapTy F s ++ mapTy F t := by
  simp [mapTy]

theorem then_assoc (a b c : Diagram) :
    (a.then b).then c = a.then (b.then c) := by
  simp [Diagram.then, List.append_assoc]

theorem then_absorb (x : Diagram) (m : Ty) (l : Diagram) :
    x.then ((idD m).then l) = x.then l := by
  simp [Diagram.then, idD]

theorem idD_tensor_idD (a b : Ty) :
    (idD a).tensor (idD b) = idD (a ++ b) := by
  simp [Diagram.tensor, idD]

theorem tensor_idD_then (t : Ty) (x y : Diagram) :
    (idD t).tensor (x.then y) =
      ((idD t).tensor x).then ((idD t).tensor y) := by
  simp [Diagram.tensor, Diagram.then, idD]

/-- The last stage of a tensor: padding the first factor on the right and
the second on the left, then composing, is the tensor. -/
theorem tensor_decompose (x y : Diagram) (c b : Ty) (hx : x.cod = c)
    (hy : y.dom = b) :
    (x.tensor (idD b)).then ((idD c).tensor y) = x.tensor y := by
  subst hx hy
  simp [Diagram.tensor, Diagram.then, idD]

theorem applyFGo_dom (F : MonFunctor) :
    ∀ (bs : List Bx) (os : List Int) (scan : Ty) (acc : Diagram),
      (applyFGo F scan bs os acc).dom = acc.dom := by
  intro bs
  induction bs with
  | nil => intro os scan acc; rfl
  | cons b bs ih =>
    intro os scan acc
    cases os with
    | nil => rfl
    | cons o os =>
      rw [applyFGo, ih]
      rfl

theorem pyTake_nonneg {α : Type} (l : List α) {o : Int} (h0 : 0 ≤ o) :
    pyTake l o = l.take o.toNat := by
  unfold pyTake
  rw [if_neg (by omega)]

theorem pyDrop_nonneg {α : Type} (l : List α) {o : Int} (ld : Nat)
    (h0 : 0 ≤ o) :
    pyDrop l (o + (ld : Int)) = l.drop (o.toNat + ld) := by
  unfold pyDrop
  rw [if_neg (by omega)]
  congr 1
  omega

theorem canonScan_lengths :
    ∀ (bs : List Bx) (os : List Int) (scan c : Ty),
      canonScan scan bs os = some c → bs.length = os.length := by
  intro bs
  induction bs with
  | nil =>
    intro os scan c h
    cases os with
    | nil => rfl
    | cons o os => exact absurd h (by simp [canonScan])
  | cons b bs ih =>
    intro os scan c h
    cases os with
    | nil => exact absurd h (by simp [canonScan])
    | cons o os =>
      rw [canonScan] at h
      split_ifs at h
      simpa using ih os _ c h

/-- The scan evolution of a canonically well-formed prefix, run with
Python slicing over a right-extended scan, is the canonical final scan
with the extension untouched. -/
theorem scanPy_padded :
    ∀ (bs : List Bx) (os : List Int) (scan c extra : Ty),
      canonScan scan bs os = some c →
      scanPy (scan ++ extra) bs os = c ++ extra := by
  intro bs
  induction bs with
  | nil =>
    intro os scan c extra h
    cases os with
    | nil =>
      injection h with h'
      rw [scanPy, h']
    | cons o os => exact absurd h (by simp [canonScan])
  | cons b bs ih =>
    intro os scan c extra h
    cases os with
    | nil => exact absurd h (by simp [canonScan])
    | cons o os =>
      rw [canonScan] at h
      split_ifs at h with hc
      obtain ⟨h0, hlen, hseg⟩ := hc
      rw [scanPy, pyTake_nonneg _ h0, pyDrop_nonneg _ _ h0,
        List.take_append_of_le_length (by omega),
        List.drop_append_of_le_length hlen,
        show scan.take o.toNat ++ b.cod ++ (scan.drop (o.toNat +
            b.dom.length) ++ extra) =
          (scan.take o.toNat ++ b.cod ++
            scan.drop (o.toNat + b.dom.length)) ++ extra from by
          simp [List.append_assoc]]
      exact ih os _ c extra h

/-- Factoring the accumulator out of the functor's structural fold: the
fold started at `acc` is `acc >> (fold started at the identity)`, as long
as the accumulator's codomain matches the scanned wires. -/
theorem applyFGo_factor (F : MonFunctor) (hF : typeOk F) :
    ∀ (bs : List Bx) (os : List Int) (scan : Ty) (acc : Diagram),
      acc.cod = mapTy F scan →
      applyFGo F scan bs os acc =
        acc.then (applyFGo F scan bs os (idD (mapTy F scan))) := by
  intro bs
  induction bs with
  | nil =>
    intro os scan acc hacc
    show acc = acc.then (idD (mapTy F scan))
    obtain ⟨ad, ac, ab, ao⟩ := acc
    simp only at hacc
    simp [Diagram.then, idD, hacc]
  | cons b bs ih =>
    intro os scan acc hacc
    cases os with
    | nil =>
      show acc = acc.then (idD (mapTy F scan))
      obtain ⟨ad, ac, ab, ao⟩ := acc
      simp only at hacc
      simp [Diagram.then, idD, hacc]
    | cons o os =>
      simp only [applyFGo]
      have hLcod : ∀ x : Diagram,
          (x.then (((idD (mapTy F (pyTake scan o))).tensor
            (F.ar b)).tensor (idD (mapTy F (pyDrop scan
              (o + (b.dom.length : Int))))))).cod =
            mapTy F (pyTake scan o ++ b.cod ++
              pyDrop scan (o + (b.dom.length : Int))) := by
        intro x
        simp [Diagram.then, Diagram.tensor, idD, mapTy_append, (hF b).2,
          List.append_assoc]
      rw [ih os _ _ (hLcod acc), ih os _ _ (hLcod (idD (mapTy F scan)))]
      simp [Diagram.then, Diagram.tensor, idD, List.append_assoc]

/-- The codomain of the functor image of a canonically well-formed
diagram is the translated codomain. -/
theorem applyFGo_cod (F : MonFunctor) (hF : typeOk F) :
    ∀ (bs : List Bx) (os : List Int) (scan c : Ty) (acc : Diagram),
      canonScan scan bs os = some c → acc.cod = mapTy F scan →
      (applyFGo F scan bs os acc).cod = mapTy F c := by
  intro bs
  induction bs with
  | nil =>
    intro os scan c acc h hacc
    cases os with
    | nil =>
      injection h with h'
      rw [← h']
      exact hacc
    | cons o os => exact absurd h (by simp [canonScan])
  | cons b bs ih =>
    intro os scan c acc h hacc
    cases os with
    | nil => exact absurd h (by simp [canonScan])
    | cons o os =>
      rw [canonScan] at h
      split_ifs at h with hc
      obtain ⟨h0, hlen, hseg⟩ := hc
      simp only [applyFGo]
      rw [pyTake_nonneg _ h0, pyDrop_nonneg _ _ h0]
      refine ih os _ c _ h ?_
      simp [Diagram.then, Diagram.tensor, idD, mapTy_append, (hF b).2,
        List.append_assoc]

end Moncat


namespace Moncat

theorem applyFGo_append (F : MonFunctor) :
    ∀ (bs1 : List Bx) (os1 : List Int) (bs2 : List Bx) (os2 : List Int)
      (scan : Ty) (acc : Diagram), bs1.length = os1.length →
      applyFGo F scan (bs1 ++ bs2) (os1 ++ os2) acc =
        applyFGo F (scanPy scan bs1 os1) bs2 os2
          (applyFGo F scan bs1 os1 acc) := by
  intro bs1
  induction bs1 with
  | nil =>
    intro os1 bs2 os2 scan acc hlen
    obtain rfl : os1 = [] := List.length_eq_zero.mp hlen.symm
    rfl
  | cons b bs1 ih =>
    intro os1 bs2 os2 scan acc hlen
    cases os1 with
    | nil => exact absurd hlen (by simp)
    | cons o os1 =>
      simp only [List.cons_append, applyFGo, scanPy]
      exact ih os1 bs2 os2 _ _ (by simpa using hlen)

theorem applyFGo_pad_right (F : MonFunctor) :
    ∀ (bs : List Bx) (os : List Int) (scan c extra : Ty) (acc : Diagram),
      canonScan scan bs os = some c →
      applyFGo F (scan ++ extra) bs os
          (acc.tensor (idD (mapTy F extra))) =
        (applyFGo F scan bs os acc).tensor (idD (mapTy F extra)) := by
  intro bs
  induction bs with
  | nil =>
    intro os scan c extra acc h
    cases os with
    | nil => rfl
    | cons o os => exact absurd h (by simp [canonScan])
  | cons b bs ih =>
    intro os scan c extra acc h
    cases os with
    | nil => exact absurd h (by simp [canonScan])
    | cons o os =>
      rw [canonScan] at h
      split_ifs at h with hc
      obtain ⟨h0, hlen, hseg⟩ := hc
      simp only [applyFGo]
      rw [pyTake_nonneg _ h0, pyDrop_nonneg _ _ h0,
        pyTake_nonneg _ h0, pyDrop_nonneg _ _ h0,
        List.take_append_of_le_length (by omega),
        List.drop_append_of_le_length hlen]
      rw [show scan.take o.toNat ++ b.cod ++
          (scan.drop (o.toNat + b.dom.length) ++ extra) =
          (scan.take o.toNat ++ b.cod ++
            scan.drop (o.toNat + b.dom.length)) ++ extra from by
        simp [List.append_assoc]]
      rw [show (acc.tensor (idD (mapTy F extra))).then
          (((idD (mapTy F (scan.take o.toNat))).tensor (F.ar b)).tensor
            (idD (mapTy F (scan.drop (o.toNat + b.dom.length) ++ extra)))) =
          (acc.then (((idD (mapTy F (scan.take o.toNat))).tensor
            (F.ar b)).tensor (idD (mapTy F (scan.drop
              (o.toNat + b.dom.length)))))).tensor
            (idD (mapTy F extra)) from by
        simp [Diagram.then, Diagram.tensor, idD, mapTy_append,
          List.append_assoc]]
      exact ih os _ c extra _ h

end Moncat


namespace Moncat

theorem applyFGo_pad_left (F : MonFunctor) (hF : typeOk F) :
    ∀ (bs : List Bx) (os : List Int) (scan c C : Ty),
      canonScan scan bs os = some c →
      applyFGo F (C ++ scan) bs (os.map (· + (C.length : Int)))
          (idD (mapTy F (C ++ scan))) =
        (idD (mapTy F C)).tensor
          (applyFGo F scan bs os (idD (mapTy F scan))) := by
  intro bs
  induction bs with
  | nil =>
    intro os scan c C h
    cases os with
    | nil =>
      show idD (mapTy F (C ++ scan)) =
        (idD (mapTy F C)).tensor (idD (mapTy F scan))
      rw [idD_tensor_idD, mapTy_append]
    | cons o os => exact absurd h (by simp [canonScan])
  | cons b bs ih =>
    intro os scan c C h
    rcases os with _ | ⟨o, os⟩
    · exact absurd h (by simp [canonScan])
    rw [canonScan] at h
    split_ifs at h with hc
    obtain ⟨h0, hlen, hseg⟩ := hc
    simp only [List.map_cons, applyFGo]
    have hTake : pyTake (C ++ scan) (o + (C.length : Int)) =
        C ++ scan.take o.toNat := by
      rw [pyTake_nonneg _ (by omega),
        List.take_append_eq_append_take,
        List.take_of_length_le (by omega),
        show (o + (C.length : Int)).toNat - C.length = o.toNat from by
          omega]
    have hDrop : pyDrop (C ++ scan)
        ((o + (C.length : Int)) + (b.dom.length : Int)) =
        scan.drop (o.toNat + b.dom.length) := by
      rw [pyDrop_nonneg _ _ (by omega),
        List.drop_append_eq_append_drop,
        List.drop_eq_nil_of_le (by omega), List.nil_append,
        show (o + (C.length : Int)).toNat + b.dom.length - C.length =
          o.toNat + b.dom.length from by omega]
    rw [hTake, hDrop, pyTake_nonneg _ h0, pyDrop_nonneg _ _ h0]
    rw [show (C ++ scan.take o.toNat) ++ b.cod ++
        scan.drop (o.toNat + b.dom.length) =
        C ++ (scan.take o.toNat ++ b.cod ++
          scan.drop (o.toNat + b.dom.length)) from by
      simp [List.append_assoc]]
    rw [applyFGo_factor F hF bs (os.map (· + (C.length : Int))) _ _ (by
      simp [Diagram.then, Diagram.tensor, idD, mapTy_append, (hF b).2,
        List.append_assoc])]
    rw [ih os _ c C h]
    rw [applyFGo_factor F hF bs os
      (scan.take o.toNat ++ b.cod ++ scan.drop (o.toNat + b.dom.length))
      ((idD (mapTy F scan)).then
        (((idD (mapTy F (scan.take o.toNat))).tensor (F.ar b)).tensor
          (idD (mapTy F (scan.drop (o.toNat + b.dom.length)))))) (by
      simp [Diagram.then, Diagram.tensor, idD, mapTy_append, (hF b).2,
        List.append_assoc])]
    have hacc_eq :
        (idD (mapTy F (C ++ scan))).then
          (((idD (mapTy F (C ++ scan.take o.toNat))).tensor
            (F.ar b)).tensor
              (idD (mapTy F (scan.drop (o.toNat + b.dom.length))))) =
        (idD (mapTy F C)).tensor
          ((idD (mapTy F scan)).then
            (((idD (mapTy F (scan.take o.toNat))).tensor (F.ar b)).tensor
              (idD (mapTy F (scan.drop (o.toNat + b.dom.length)))))) := by
      simp [Diagram.then, Diagram.tensor, idD, mapTy_append,
        List.append_assoc, List.map_map]
      intro a ha
      omega
    rw [tensor_idD_then, hacc_eq]

end Moncat


namespace Moncat

theorem mapTy_idF (t : Ty) : mapTy idF t = t := by
  induction t with
  | nil => rfl
  | cons o t ih => simpa [mapTy, idF] using ih

theorem applyF_then (F : MonFunctor) (hF : typeOk F) (d1 d2 : Diagram)
    (h1 : d1.WF) (_h2 : d2.WF) (hmid : d1.cod = d2.dom) :
    applyF F (d1.then d2) = (applyF F d1).then (applyF F d2) := by
  have hlen1 := canonScan_lengths d1.boxes d1.offsets d1.dom d1.cod h1
  have hscan : scanPy d1.dom d1.boxes d1.offsets = d1.cod := by
    have hpad := scanPy_padded d1.boxes d1.offsets d1.dom d1.cod [] h1
    simpa using hpad
  have hcod1 : (applyFGo F d1.dom d1.boxes d1.offsets
      (idD (mapTy F d1.dom))).cod = mapTy F d1.cod :=
    applyFGo_cod F hF d1.boxes d1.offsets d1.dom d1.cod
      (idD (mapTy F d1.dom)) h1 rfl
  simp only [applyF, Diagram.then]
  rw [applyFGo_append F d1.boxes d1.offsets d2.boxes d2.offsets d1.dom
    (idD (mapTy F d1.dom)) hlen1]
  rw [hscan, hmid]
  rw [applyFGo_factor F hF d2.boxes d2.offsets d2.dom
    (applyFGo F d1.dom d1.boxes d1.offsets (idD (mapTy F d1.dom))) (by
      rw [hcod1, hmid])]
  rfl

theorem applyF_tensor (F : MonFunctor) (hF : typeOk F) (d1 d2 : Diagram)
    (h1 : d1.WF) (h2 : d2.WF) :
    applyF F (d1.tensor d2) = (applyF F d1).tensor (applyF F d2) := by
  have hlen1 := canonScan_lengths d1.boxes d1.offsets d1.dom d1.cod h1
  have hcod1 : (applyFGo F d1.dom d1.boxes d1.offsets
      (idD (mapTy F d1.dom))).cod = mapTy F d1.cod :=
    applyFGo_cod F hF d1.boxes d1.offsets d1.dom d1.cod
      (idD (mapTy F d1.dom)) h1 rfl
  simp only [applyF, Diagram.tensor]
  rw [applyFGo_append F d1.boxes d1.offsets d2.boxes
    (d2.offsets.map (· + (d1.cod.length : Int))) (d1.dom ++ d2.dom)
    (idD (mapTy F (d1.dom ++ d2.dom))) hlen1]
  rw [scanPy_padded d1.boxes d1.offsets d1.dom d1.cod d2.dom h1]
  rw [show idD (mapTy F (d1.dom ++ d2.dom)) =
      (idD (mapTy F d1.dom)).tensor (idD (mapTy F d2.dom)) from by
    rw [idD_tensor_idD, mapTy_append]]
  rw [applyFGo_pad_right F d1.boxes d1.offsets d1.dom d1.cod d2.dom
    (idD (mapTy F d1.dom)) h1]
  rw [applyFGo_factor F hF d2.boxes
    (d2.offsets.map (· + (d1.cod.length : Int))) (d1.cod ++ d2.dom)
    ((applyFGo F d1.dom d1.boxes d1.offsets
      (idD (mapTy F d1.dom))).tensor (idD (mapTy F d2.dom))) (by
      rw [show ((applyFGo F d1.dom d1.boxes d1.offsets
          (idD (mapTy F d1.dom))).tensor (idD (mapTy F d2.dom))).cod =
        (applyFGo F d1.dom d1.boxes d1.offsets
          (idD (mapTy F d1.dom))).cod ++ mapTy F d2.dom from rfl]
      rw [hcod1, mapTy_append])]
  rw [applyFGo_pad_left F hF d2.boxes d2.offsets d2.dom d2.cod d1.cod h2]
  exact tensor_decompose _ _ _ _ hcod1 (by
    rw [applyFGo_dom]
    rfl)

/-- C7: for a type-respecting monoidal functor and canonically
well-formed diagrams, application is a homomorphism for both
compositions: `F(d1 >> d2) == F(d1) >> F(d2)` when `d1.cod = d2.dom`,
and `F(d1 @ d2) == F(d1) @ F(d2)` unconditionally. -/
theorem functor_hom (F : MonFunctor) (d1 d2 : Diagram) (hF : typeOk F)
    (h1 : d1.WF) (h2 : d2.WF) :
    (d1.cod = d2.dom →
      applyF F (d1.then d2) = (applyF F d1).then (applyF F d2)) ∧
    applyF F (d1.tensor d2) = (applyF F d1).tensor (applyF F d2) :=
  ⟨fun hmid => applyF_then F hF d1 d2 h1 h2 hmid,
    applyF_tensor F hF d1 d2 h1 h2⟩

/-- Witness for C7: the identity functor on the composable pair
`f0 : x → y`, `g : y → x` satisfies both homomorphism laws. -/
theorem functor_hom_witness :
    typeOk idF ∧ (ofBox bF0).WF ∧ (ofBox bG).WF ∧
      applyF idF ((ofBox bF0).then (ofBox bG)) =
        (applyF idF (ofBox bF0)).then (applyF idF (ofBox bG)) ∧
      applyF idF ((ofBox bF0).tensor (ofBox bG)) =
        (applyF idF (ofBox bF0)).tensor (applyF idF (ofBox bG)) := by
  have hF : typeOk idF := fun b =>
    ⟨(mapTy_idF b.dom).symm, (mapTy_idF b.cod).symm⟩
  have h1 : (ofBox bF0).WF := rfl
  have h2 : (ofBox bG).WF := rfl
  exact ⟨hF, h1, h2,
    (functor_hom idF (ofBox bF0) (ofBox bG) hF h1 h2).1 rfl,
    (functor_hom idF (ofBox bF0) (ofBox bG) hF h1 h2).2⟩

end Moncat
